import Mathlib

/-!
Shallow embedding of `web/profile.go` from the LiteSpeedTest repository
(package `web`): the batch-message parsers (`parseMessage`,
`parseRetestMessage`, `parseOptions`, `parseLinks`), the per-link
ping/speed pipeline (`pingLink`, `testOne` with its streaming speed
aggregator), and the batch scheduler (`testAll`), modelled sequentially
(one legal schedule, no cancellation).  Machine int64 values are
modelled as unbounded `Int`; `time.Duration` is an `Int` count of
nanoseconds.  External collaborators (HTTP subscription fetch, JSON
decoding, `request.PingLink`, `download.Download`, the websocket) are
parameters of the model.
-/

set_option autoImplicit false

namespace LiteSpeedTest

/-- Go constant block of `profile.go`: `SpeedOnly = "speedonly"`. -/
def SpeedOnly : String := "speedonly"

/-- Go constant block of `profile.go`: `PingOnly = "pingonly"`. -/
def PingOnly : String := "pingonly"

/-- `ALLTEST = iota` in the const block: the two string constants occupy
iota 0 and 1, so `ALLTEST = 2`. -/
def ALLTEST : Int := 2

/-- `RETEST` follows `ALLTEST` in the const block, so `RETEST = 3`. -/
def RETEST : Int := 3

/-- `time.Second` expressed in nanoseconds (`time.Duration` units). -/
def second : Int := 1000000000

/-- The fields of Go struct `ProfileTestOptions`; `timeoutNs` is the
`Timeout time.Duration` field in nanoseconds. -/
structure GoOptions where
  groupName : String
  speedTestMode : String
  pingMethod : String
  sortMethod : String
  concurrency : Int
  testMode : Int
  testIDs : List Int
  timeoutNs : Int
  links : List String
deriving DecidableEq

/-- Error outcomes of the parsing functions: `ErrInvalidData`, a
`strconv.Atoi` error, a `json.Unmarshal` error, and the
`errors.New("not retest mode")` error of `parseRetestMessage`. -/
inductive ParseErr where
  | invalidData
  | atoiErr
  | jsonErr
  | notRetest
deriving DecidableEq

/-- `strings.Split(s, "^")` on a list of characters: splits at every
`'^'`; the empty string yields one empty field. -/
def splitCaret : List Char → List (List Char)
  | [] => [[]]
  | c :: rest =>
    if c = '^' then [] :: splitCaret rest
    else
      match splitCaret rest with
      | [] => [[c]]
      | h :: t => (c :: h) :: t

/-- `strings.SplitN(s, sep, 2)` when the separator occurs: the part
before the first `sep` and the part after it; `none` when `sep` does
not occur (Go would return a single-element slice). -/
def splitFirst (sep : Char) : List Char → Option (List Char × List Char)
  | [] => none
  | c :: rest =>
    if c = sep then some ([], rest)
    else (splitFirst sep rest).map (fun p => (c :: p.1, p.2))

/-- Value of an all-digit character list read in base 10. -/
def digitsVal : List Char → Nat → Nat
  | [], acc => acc
  | c :: rest, acc => digitsVal rest (acc * 10 + (c.toNat - '0'.toNat))

/-- Sign-free part of `strconv.Atoi`: a non-empty run of decimal digits
and nothing else. -/
def atoiDigits (cs : List Char) : Option Nat :=
  if cs ≠ [] ∧ cs.all Char.isDigit then some (digitsVal cs 0) else none

/-- `strconv.Atoi`: optional single `+`/`-` sign followed by one or
more decimal digits; anything else is an error (int64 range ignored:
the claims only involve small values). -/
def atoi (s : String) : Option Int :=
  match s.toList with
  | '+' :: rest => (atoiDigits rest).map Int.ofNat
  | '-' :: rest => (atoiDigits rest).map (fun n => -(Int.ofNat n))
  | l => (atoiDigits l).map Int.ofNat

/-- `parseOptions` (profile.go lines 70-103): split the parameter
segment on `^` into at least 7 fields, default the group name, parse
concurrency and timeout with `Atoi`, floor concurrency at 1 and
timeout at 20 (seconds, before scaling to a duration), and set
`TestMode = ALLTEST`. -/
def parseOptions (message : String) : Except ParseErr GoOptions :=
  let opts := (splitCaret message.toList).map (fun cs => String.mk cs)
  if opts.length < 7 then .error .invalidData
  else
    let groupName0 := opts.getD 0 ""
    let groupName := if groupName0 = "?empty?" ∨ groupName0 = "" then "Default Group" else groupName0
    match atoi (opts.getD 5 "") with
    | none => .error .atoiErr
    | some concurrency0 =>
      let concurrency := if concurrency0 < 1 then 1 else concurrency0
      match atoi (opts.getD 6 "") with
      | none => .error .atoiErr
      | some timeout0 =>
        let timeout := if timeout0 < 20 then 20 else timeout0
        .ok { groupName := groupName
              speedTestMode := opts.getD 1 ""
              pingMethod := opts.getD 2 ""
              sortMethod := opts.getD 3 ""
              concurrency := concurrency
              testMode := ALLTEST
              testIDs := []
              timeoutNs := timeout * second
              links := [] }

/-- `parseRetestMessage` (profile.go lines 144-165).  `json.Unmarshal`
is external (`encoding/json`); its outcome is the `decoded` argument:
`none` when the bytes are not a JSON encoding of the struct, otherwise
the decoded record (absent JSON fields are zero values, and the raw
`timeout` number lands unscaled in the `Timeout time.Duration` field).
The body then requires `TestMode = RETEST`, scales the timeout by
`time.Second`, defaults the group name, and floors the scaled duration
at 20 (nanoseconds!) and the concurrency at 1. -/
def parseRetestMessage (decoded : Option GoOptions) : Except ParseErr (List String × GoOptions) :=
  match decoded with
  | none => .error .jsonErr
  | some o0 =>
    if o0.testMode ≠ RETEST then .error .notRetest
    else
      let o1 := { o0 with testMode := RETEST, timeoutNs := o0.timeoutNs * second }
      let o2 := { o1 with groupName := if o1.groupName = "?empty?" ∨ o1.groupName = "" then "Default Group" else o1.groupName }
      let o3 := { o2 with timeoutNs := if o2.timeoutNs < 20 then 20 else o2.timeoutNs }
      let o4 := { o3 with concurrency := if o3.concurrency < 1 then 1 else o3.concurrency }
      .ok (o4.links, o4)

/-! ## The two regular expressions of `parseLinks`, as direct matchers

`parseLinks` (profile.go lines 49-68) first tests the message against
the anchored URL pattern
`^(?:https?:\/\/)(?:[^@\/\n]+@)?(?:www\.)?([^:\/\n]+)`
(a match routes the message to the external subscription fetch), then
scans it with
`((?i)(vmess|ssr)://[a-zA-Z0-9+_/=-]+)|((?i)(ss|trojan)://(.+?)@(.+?):([0-9]{2,5})([?#][^\s]+))`
using `FindAllStringSubmatch` (leftmost, Perl-style first-match
semantics, non-overlapping, continuing after each match).  The
matchers below transliterate these two patterns. -/

/-- Character class `[a-zA-Z0-9+_/=-]` of the vmess/ssr branch. -/
def b64Char (c : Char) : Bool :=
  (decide ('a' ≤ c) && decide (c ≤ 'z')) || (decide ('A' ≤ c) && decide (c ≤ 'Z')) ||
  (decide ('0' ≤ c) && decide (c ≤ '9')) || decide (c = '+') || decide (c = '_') ||
  decide (c = '/') || decide (c = '=') || decide (c = '-')

/-- Go's `\s` class: `[\t\n\f\r ]`. -/
def goSpace (c : Char) : Bool :=
  decide (c = ' ') || decide (c = '\t') || decide (c = '\n') ||
  decide (c = '\x0c') || decide (c = '\r')

/-- Strip an exact (case-sensitive) prefix. -/
def stripExact (pat : List Char) (cs : List Char) : Option (List Char) :=
  match pat, cs with
  | [], rest => some rest
  | _ :: _, [] => none
  | p :: ps, c :: rest => if c = p then stripExact ps rest else none

/-- Strip a case-insensitive prefix (`pat` given in lower case),
returning the original prefix text together with the remainder —
`FindAllStringSubmatch` reports the original text of the match. -/
def stripCI (pat : List Char) (cs : List Char) : Option (List Char × List Char) :=
  match pat, cs with
  | [], rest => some ([], rest)
  | _ :: _, [] => none
  | p :: ps, c :: rest =>
    if c.toLower = p then (stripCI ps rest).map (fun q => (c :: q.1, q.2)) else none

/-- `(?:[^@\/\n]+@)?`, step 2: scanning for the `@` after at least one
class character has been consumed. -/
def afterAtAux : List Char → Option (List Char)
  | [] => none
  | c :: rest =>
    if c = '@' then some rest
    else if c = '/' ∨ c = '\n' then none
    else afterAtAux rest

/-- `(?:[^@\/\n]+@)?` of the URL pattern: since the class excludes
`@`, the group matches exactly when the first `@` is preceded only by
characters outside `{@, /, newline}` and occurs at position ≥ 1;
returns the suffix after that `@`. -/
def afterAt : List Char → Option (List Char)
  | [] => none
  | c :: rest =>
    if c = '@' ∨ c = '/' ∨ c = '\n' then none
    else afterAtAux rest

/-- Final group `([^:\/\n]+)` of the URL pattern: at least one leading
character outside `{:, /, newline}` (the pattern is not end-anchored). -/
def finalChunk : List Char → Bool
  | [] => false
  | c :: _ => !(decide (c = ':') || decide (c = '/') || decide (c = '\n'))

/-- `(?:www\.)?([^:\/\n]+)`: with or without the literal `www.`. -/
def tailNoAt (cs : List Char) : Bool :=
  finalChunk cs ||
    (match stripExact ("www.".toList) cs with
     | some r => finalChunk r
     | none => false)

/-- Everything after the scheme of the URL pattern, as an existence
test (`regexp.MatchString`): with or without the userinfo group. -/
def urlTailMatch (cs : List Char) : Bool :=
  tailNoAt cs ||
    (match afterAt cs with
     | some r => tailNoAt r
     | none => false)

/-- `regexp.MatchString` of the anchored URL pattern (profile.go line
54): an `http://` or `https://` prefix followed by the tail groups. -/
def matchURL (cs : List Char) : Bool :=
  match stripExact ("http://".toList) cs with
  | some r => urlTailMatch r
  | none =>
    match stripExact ("https://".toList) cs with
    | some r => urlTailMatch r
    | none => false

/-- `(vmess|ssr)://[a-zA-Z0-9+_/=-]+` at the current position: strip
the scheme (case-insensitively), then a non-empty greedy run of class
characters; returns `(matched text, remainder)`. -/
def tryBranch1 (cs : List Char) : Option (List Char × List Char) :=
  ((stripCI ("vmess://".toList) cs).orElse (fun _ => stripCI ("ssr://".toList) cs)).bind
    (fun sr =>
      if (sr.2.takeWhile b64Char).isEmpty then none
      else some (sr.1 ++ sr.2.takeWhile b64Char, sr.2.drop (sr.2.takeWhile b64Char).length))

/-- `([0-9]{2,5})([?#][^\s]+)` with exactly `k` digits: `k` decimal
digits, then a `?` or `#`, then a non-empty greedy run of non-space
characters; returns `((digits, suffix), remainder)`. -/
def tryDig (k : Nat) (cs : List Char) : Option ((List Char × List Char) × List Char) :=
  if (cs.take k).length = k ∧ (cs.take k).all Char.isDigit then
    (cs.drop k).head?.bind (fun c =>
      if c = '?' ∨ c = '#' then
        if ((cs.drop k).tail.takeWhile (fun x => !goSpace x)).isEmpty then none
        else some ((cs.take k, c :: (cs.drop k).tail.takeWhile (fun x => !goSpace x)),
          (cs.drop k).tail.drop ((cs.drop k).tail.takeWhile (fun x => !goSpace x)).length)
      else none)
  else none

/-- `([0-9]{2,5})([?#][^\s]+)`: the greedy counted repetition tries 5
digits first, then 4, 3, 2. -/
def digitsSuffix (cs : List Char) : Option ((List Char × List Char) × List Char) :=
  (tryDig 5 cs).orElse (fun _ => (tryDig 4 cs).orElse (fun _ =>
    (tryDig 3 cs).orElse (fun _ => tryDig 2 cs)))

/-- Backtracking worker for a lazy group `(.+?)sep`: `acc` holds the
(reversed) group text consumed so far (at least one character).  At
each position, first try to read `sep` here and run the continuation;
on failure extend the group by this character (`.` matches anything
but a newline). -/
def dotAux {β : Type} (sep : Char) (k : List Char → Option β) (acc : List Char) :
    List Char → Option (List Char × β)
  | [] => none
  | c :: rest =>
    ((if c = sep then (k rest).map (fun b => (acc.reverse, b)) else none)).orElse
      (fun _ => if c = '\n' then none else dotAux sep k (c :: acc) rest)

/-- Lazy group `(.+?)` followed by the literal `sep`, in
continuation-passing style: returns the group text and the
continuation's result, preferring the shortest group and backtracking
on continuation failure. -/
def dotLazy {β : Type} (sep : Char) (k : List Char → Option β) : List Char → Option (List Char × β)
  | [] => none
  | c :: rest => if c = '\n' then none else dotAux sep k [c] rest

/-- `(ss|trojan)://(.+?)@(.+?):([0-9]{2,5})([?#][^\s]+)` at the
current position; the matched text is reassembled from the components
actually consumed. -/
def tryBranch2 (cs : List Char) : Option (List Char × List Char) :=
  ((stripCI ("ss://".toList) cs).orElse (fun _ => stripCI ("trojan://".toList) cs)).bind
    (fun sr => (dotLazy '@' (dotLazy ':' digitsSuffix) sr.2).map
      (fun cb =>
        (sr.1 ++ cb.1 ++ '@' :: cb.2.1 ++ ':' :: cb.2.2.1.1 ++ cb.2.2.1.2, cb.2.2.2)))

/-- Which top-level alternative of the descriptor pattern matched. -/
inductive Branch where
  | b1
  | b2
deriving DecidableEq

/-- `FindAllStringSubmatch(message, -1)`: scan left to right; at each
position try the first alternative then the second; on a match record
it and continue after its end.  `fuel` bounds the recursion and is
adequate at the input length (every step strictly shortens the
remaining text). -/
def findAllAux : Nat → List Char → List (Branch × List Char)
  | 0, _ => []
  | _ + 1, [] => []
  | fuel + 1, c :: rest =>
    match tryBranch1 (c :: rest) with
    | some (m, rem) => (Branch.b1, m) :: findAllAux fuel rem
    | none =>
      match tryBranch2 (c :: rest) with
      | some (m, rem) => (Branch.b2, m) :: findAllAux fuel rem
      | none => findAllAux fuel rest

/-- All non-overlapping descriptor matches of the message, tagged with
the alternative that produced them. -/
def findAllMatches (cs : List Char) : List (Branch × List Char) :=
  findAllAux cs.length cs

/-- Result of `parseLinks`: a non-empty match list, the
`ErrInvalidData` failure, or — when the message matches the URL
pattern — deferral to the external subscription fetch
(`getSubscriptionLinks`, which performs HTTP I/O). -/
inductive LinksResult where
  | ok (links : List String)
  | invalid
  | subscription (url : String)
deriving DecidableEq

/-- `parseLinks` (profile.go lines 49-68). -/
def parseLinks (message : String) : LinksResult :=
  if matchURL message.toList then .subscription message
  else
    let ms := findAllMatches message.toList
    if ms.isEmpty then .invalid else .ok (ms.map (fun bm => String.mk bm.2))

/-- Result of `parseMessage`: links plus options, an error, or
deferral to the external subscription fetch. -/
inductive MessageResult where
  | ok (links : List String) (opts : GoOptions)
  | err (e : ParseErr)
  | subscription (url : String)
deriving DecidableEq

/-- `parseMessage` (profile.go lines 124-142): try the RETEST JSON
envelope first (`decoded` is the external `json.Unmarshal` outcome for
the message bytes); otherwise split at the first `^` into a link
segment and a parameter segment and run `parseLinks` and
`parseOptions` on them. -/
def parseMessage (decoded : Option GoOptions) (message : String) : MessageResult :=
  match parseRetestMessage decoded with
  | .ok (links, o) => .ok links o
  | .error _ =>
    match splitFirst '^' message.toList with
    | none => .err .invalidData
    | some (seg1, seg2) =>
      match parseLinks (String.mk seg1) with
      | .subscription u => .subscription u
      | .invalid => .err .invalidData
      | .ok links =>
        match parseOptions (String.mk seg2) with
        | .error e => .err e
        | .ok o => .ok links o

/-! ## Progress events and the orchestration model

`testAll`/`testOne`/`pingLink` (profile.go lines 188-291), modelled on
one legal schedule: no cancellation, and each dispatched pipeline runs
to completion (including its `endone` write) before the next dispatch
— admissible for every concurrency bound ≥ 1.  The external
primitives are parameters: per dispatch position, a ping outcome
(`request.PingLink`'s pair of elapsed milliseconds and error) and a
download outcome (the samples `download.Download` pushes into the
channel plus its returned speed and error). -/

/-- One outbound frame, by kind and arguments (`getMsgByte`).
`errorEvent` is the batch-level error frame; its payload is the
constant `SPEEDTEST_ERROR_NONODES`, defined outside `profile.go` and
therefore left abstract. -/
inductive Event where
  | errorEvent
  | started
  | gotserver (index : Int) (link : String) (group : String)
  | startping (index : Int)
  | gotping (index : Int) (elapse : Int)
  | startspeed (index : Int)
  | gotspeed (index : Int) (avg mx cur : Int)
  | endone (index : Int)
  | eof
deriving DecidableEq

/-- Outcome of the external `request.PingLink(link, 2)` call: Go's
`(elapse, err)` pair, `err = none` meaning a nil error. -/
structure PingOutcome where
  elapse : Int
  err : Option String
deriving DecidableEq

/-- Outcome of the external `download.Download` call: the throughput
samples it pushes into the channel while running, and its returned
`(speed, err)` pair. -/
structure DownloadOutcome where
  samples : List Int
  speed : Int
  err : Option String
deriving DecidableEq

/-- Aggregator state of the consumer goroutine in `testOne` (profile.go
lines 236-264): the full sample history `speeds` and the running
maximum `mx` (Go zero value 0). -/
structure AggState where
  speeds : List Int
  mx : Int
deriving DecidableEq

/-- The average loop of the consumer goroutine:
`var avg int64; for _, s := range speeds { avg += s / int64(len(speeds)) }`
— int64 division (truncation toward zero) applied to each term. -/
def aggAvg (speeds : List Int) : Int :=
  speeds.foldl (fun a s => a + Int.tdiv s (speeds.length : Int)) 0

/-- One received sample: append it to the history, recompute the
average over the whole history, update the maximum, and emit
`gotspeed(index, avg, max, speed)`. -/
def aggStep (index : Int) (st : AggState) (speed : Int) : AggState × Event :=
  let speeds := st.speeds ++ [speed]
  let avg := aggAvg speeds
  let mx := if st.mx < speed then speed else st.mx
  (⟨speeds, mx⟩, Event.gotspeed index avg mx speed)

/-- The consumer goroutine's loop: consume samples in order, stopping
at a closed channel (end of list) or a negative sample, emitting one
`gotspeed` per consumed sample. -/
def aggRun (index : Int) (st : AggState) : List Int → List Event
  | [] => []
  | s :: rest =>
    if s < 0 then []
    else
      let (st', e) := aggStep index st s
      e :: aggRun index st' rest

/-- All `gotspeed` events the aggregator emits for a link's sample
sequence, from the initial state. -/
def aggEvents (index : Int) (samples : List Int) : List Event :=
  aggRun index ⟨[], 0⟩ samples

/-- Go `strings.SplitN(link, "^", 2)[0]`: the prefix strictly before
the first `^` (the whole string when there is none). -/
def takeToCaret : List Char → List Char
  | [] => []
  | c :: rest => if c = '^' then [] else c :: takeToCaret rest

/-- `takeToCaret` on strings. -/
def caretPrefix (s : String) : String :=
  String.mk (takeToCaret s.toList)

/-- `pingLink`'s own link resolution (profile.go lines 276-278): an
empty link argument is replaced by the *unsplit* stored link
`p.Links[index]`; `none` models the index panic. -/
def pingResolve (links : List String) (index : Int) (link : String) : Option String :=
  if link = "" then (if 0 ≤ index then links.get? index.toNat else none) else some link

/-- `pingLink` (profile.go lines 272-291): skipped entirely in
speed-only mode; otherwise the link is resolved, then `startping` and
`gotping(index, elapse)` are emitted; `elapse < 1` emits the sentinel
`gotspeed(index,-1,-1,0)` and returns the ping error; ping-only mode
emits the same sentinel and returns `errors.New(PingOnly)`.  Returns
`(events, link handed to request.PingLink, returned error)`; `none`
models the index panic of `p.Links[index]`. -/
def pingLinkRun (mode : String) (links : List String) (index : Int) (link : String)
    (po : PingOutcome) : Option (List Event × Option String × Option String) :=
  if mode = SpeedOnly then some ([], none, none)
  else
    (pingResolve links index link).map (fun l =>
      if po.elapse < 1 then
        ([Event.startping index, Event.gotping index po.elapse,
          Event.gotspeed index (-1) (-1) 0], some l, po.err)
      else if mode = PingOnly then
        ([Event.startping index, Event.gotping index po.elapse,
          Event.gotspeed index (-1) (-1) 0], some l, some PingOnly)
      else ([Event.startping index, Event.gotping index po.elapse], some l, po.err))

/-- What one `testOne` call (profile.go lines 222-270) did: its
emitted events, whether it called `wg.Done` (the `defer` sits inside
the `link == ""` branch only), the links handed to the external ping
and download primitives, and its returned error. -/
structure TestOneResult where
  events : List Event
  wgDone : Bool
  pinged : Option String
  downloaded : Option String
  retErr : Option String
deriving DecidableEq

/-- `testOne`'s link resolution (profile.go lines 224-228): an empty
link argument is resolved from the stored batch list and split at the
first `^`, and only in that branch is `wg.Done` deferred (the second
component records whether it was); `none` models the `p.Links[index]`
panic. -/
def testOneResolve (links : List String) (index : Int) (link : String) :
    Option (String × Bool) :=
  if link = "" then
    match (if 0 ≤ index then links.get? index.toNat else none) with
    | none => none
    | some stored => some (caretPrefix stored, true)
  else some (link, false)

/-- `testOne`: resolve the link; a ping error returns early;
otherwise `startspeed` is emitted, the aggregator consumes the
download's samples, and a final measured speed `< 1` appends the
sentinel `gotspeed(index,-1,-1,0)`.  `none` models the
`p.Links[index]` panic. -/
def testOneRun (mode : String) (links : List String) (index : Int) (link : String)
    (po : PingOutcome) (dl : DownloadOutcome) : Option TestOneResult :=
  (testOneResolve links index link).bind (fun lw =>
    (pingLinkRun mode links index lw.1 po).map (fun trip =>
      match trip.2.2 with
      | some e => ⟨trip.1, lw.2, trip.2.1, none, some e⟩
      | none =>
        ⟨trip.1 ++ Event.startspeed index ::
            (aggEvents index dl.samples ++
              (if dl.speed < 1 then [Event.gotspeed index (-1) (-1) 0] else [])),
          lw.2, trip.2.1, some lw.1, dl.err⟩))

/-- The goroutine body dispatched by `testAll`: run `testOne`, then
write `endone(id)`. -/
def pipelineRun (mode : String) (links : List String) (index : Int) (link : String)
    (po : PingOutcome) (dl : DownloadOutcome) : Option (List Event × Bool) :=
  (testOneRun mode links index link po dl).map (fun r => (r.events ++ [Event.endone index], r.wgDone))

/-- A batch as `ProfileTest` carries it: the stored link list
`p.Links` and the options `p.Options`. -/
structure Batch where
  links : List String
  opts : GoOptions
deriving DecidableEq

/-- The dispatch loop's per-index parameters (profile.go lines
198-205): with non-empty `TestIDs` *and* non-empty `Options.Links`,
read `TestIDs[i]` and `Options.Links[i]` (out of range means a panic,
modelled as `none`); otherwise use the position itself and an empty
link. -/
def dispatchParams (opts : GoOptions) (i : Nat) : Option (Int × String) :=
  if opts.testIDs ≠ [] ∧ opts.links ≠ [] then
    match opts.testIDs.get? i, opts.links.get? i with
    | some id, some l => some (id, l)
    | _, _ => none
  else some (Int.ofNat i, "")

/-- Outcome of one `testAll` run under the sequential schedule. -/
inductive RunResult where
  | noProfiles (events : List Event)
  | dispatchPanic (events : List Event)
  | pipelinePanic (events : List Event)
  | deadlock (events : List Event)
  | completed (events : List Event)
deriving DecidableEq

/-- The dispatch loop over the remaining positions: each position
reads its parameters (panic on out-of-range), runs its pipeline, and
accumulates events; `allDone` records whether every pipeline so far
called `wg.Done`.  When the loop ends, `wg.Wait()` either returns
(every pipeline signalled: emit the single `eof`) or blocks forever
(the run deadlocks, `eof` is never written). -/
def runPipelines (b : Batch) (po : Nat → PingOutcome) (dl : Nat → DownloadOutcome) :
    List Nat → List Event → Bool → RunResult
  | [], evs, allDone =>
    if allDone then .completed (evs ++ [Event.eof]) else .deadlock evs
  | i :: rest, evs, allDone =>
    match dispatchParams b.opts i with
    | none => .dispatchPanic evs
    | some (id, link) =>
      match pipelineRun b.opts.speedTestMode b.links id link (po i) (dl i) with
      | none => .pipelinePanic evs
      | some (pEvs, done) => runPipelines b po dl rest (evs ++ pEvs) (allDone && done)

/-- `testAll` (profile.go lines 188-220): an empty link list writes
the batch-level error frame and returns a failure; otherwise `started`
and one `gotserver(i, link, group)` per link precede the dispatch
loop, and a terminal `eof` follows `wg.Wait()`. -/
def testAllRun (b : Batch) (po : Nat → PingOutcome) (dl : Nat → DownloadOutcome) : RunResult :=
  if b.links.length < 1 then .noProfiles [Event.errorEvent]
  else
    runPipelines b po dl (List.range b.links.length)
      (Event.started :: (List.range b.links.length).map
        (fun i => Event.gotserver (Int.ofNat i) (b.links.getD i "") b.opts.groupName))
      true

/-! ## Observation helpers over event lists -/

/-- Is this the terminal `eof` frame? -/
def isEof : Event → Bool
  | .eof => true
  | _ => false

/-- Is this an `endone` frame? -/
def isEndone : Event → Bool
  | .endone _ => true
  | _ => false

/-- The `max` arguments carried by the `gotspeed` events of a trace,
in order. -/
def gotspeedMaxes : List Event → List Int
  | [] => []
  | .gotspeed _ _ m _ :: rest => m :: gotspeedMaxes rest
  | _ :: rest => gotspeedMaxes rest

/-- For a `gotspeed` event: the `avg` argument lies between 0 and the
`max` argument inclusive (vacuously true for other events). -/
def avgWithinMax : Event → Bool
  | .gotspeed _ a m _ => decide (0 ≤ a ∧ a ≤ m)
  | _ => true

/-- A list of integers is non-decreasing, each entry at least `lo`. -/
def listNonDecrFrom (lo : Int) : List Int → Bool
  | [] => true
  | a :: rest => decide (lo ≤ a) && listNonDecrFrom a rest

/-- A list of integers is non-decreasing. -/
def listNonDecr : List Int → Bool
  | [] => true
  | a :: rest => listNonDecrFrom a rest

/-- Spec-side average formula for the claim comparison: the average of
the history recomputed with int64 (truncating) division applied to
each term before summation, `Σ (sᵢ div n)` for `n` the history
length. -/
def perTermAvg (l : List Int) : Int :=
  (l.map (fun s => Int.tdiv s (l.length : Int))).sum

/-- Running maximum of a sample history, from the Go zero value 0. -/
def runMax (l : List Int) : Int :=
  l.foldl max 0

/-- The Go condition `len(p.Options.TestIDs) > 0 && len(p.Options.Links) > 0`
selecting the explicit (retest) id/link overrides. -/
def overrideActive (o : GoOptions) : Bool :=
  !o.testIDs.isEmpty && !o.links.isEmpty

/-- All dispatch-loop reads for positions below `n` are in bounds. -/
def dispatchInBounds (opts : GoOptions) (n : Nat) : Bool :=
  (List.range n).all (fun i => (dispatchParams opts i).isSome)

/-- Shape of every match produced by the `(ss|trojan)://…` alternative
of the descriptor pattern: scheme tag, non-empty credential, `@`,
non-empty host, `:`, 2 to 5 digits of port, then a non-empty suffix
starting with `?` or `#` made of non-space characters. -/
def branch2Shape (m : List Char) : Prop :=
  ∃ scheme cred host digits c run,
    m = scheme ++ cred ++ '@' :: host ++ ':' :: digits ++ c :: run
    ∧ (scheme.map Char.toLower = "ss://".toList ∨ scheme.map Char.toLower = "trojan://".toList)
    ∧ cred ≠ [] ∧ host ≠ []
    ∧ 2 ≤ digits.length ∧ digits.length ≤ 5 ∧ digits.all Char.isDigit = true
    ∧ (c = '?' ∨ c = '#') ∧ run ≠ [] ∧ run.all (fun x => !goSpace x) = true

/-! ## Claim theorems -/

/-- C1: the claim says both input paths floor the timeout at 20
seconds (in particular a requested timeout of 5 normalizes to 20 s).
The legacy path does, but `parseRetestMessage` floors the *scaled*
duration against the bare literal 20 — i.e. 20 nanoseconds — so a
RETEST envelope requesting `timeout = 5` keeps a 5-second timeout
(5·10⁹ ns ≥ 20 ns), contradicting the claim; concurrency is floored
as claimed, and the legacy path floors 5 up to 20 seconds. -/
theorem c1_retest_timeout_floor_bug :
    parseRetestMessage (some ⟨"G", "", "", "", 0, RETEST, [], 5, ["a"]⟩)
      = .ok (["a"], ⟨"G", "", "", "", 1, RETEST, [], 5 * second, ["a"]⟩)
    ∧ 5 * second < 20 * second
    ∧ parseOptions "G^^^^^0^5" = .ok ⟨"G", "", "", "", 1, ALLTEST, [], 20 * second, []⟩ := by
  refine ⟨rfl, by norm_num [second], rfl⟩

/-- C4 (counterexample): the claimed legacy message
`"vmess://abc^Group1^^^^3^30"` does *not* parse: after splitting off
the link segment at the first `^`, the options segment
`"Group1^^^^3^30"` has only 6 `^`-separated fields, one short of the 7
`parseOptions` requires, so `parseMessage` fails with
`ErrInvalidData` instead of succeeding. -/
theorem c4_example_message_rejected :
    parseMessage none "vmess://abc^Group1^^^^3^30" = .err .invalidData := rfl

/-- C4 (amended): with one more `^` (so that the options segment has
the required 7 fields) the legacy message parses exactly as the claim
describes: one link `"vmess://abc"`, group `"Group1"`, concurrency 3,
timeout 30 seconds, `testMode = ALLTEST`. -/
theorem c4_amended_message_parses :
    parseMessage none "vmess://abc^Group1^^^^^3^30"
      = .ok ["vmess://abc"] ⟨"Group1", "", "", "", 3, ALLTEST, [], 30 * second, []⟩ := rfl

/-- C7: a batch with an empty link list makes `testAll` write exactly
the single batch-level error frame and return a failure at once: the
run's whole event list is `[errorEvent]`, so no `started`, no
`gotserver` and no `eof` frame is ever emitted. -/
theorem c7_empty_batch_single_error (opts : GoOptions) (po : Nat → PingOutcome)
    (dl : Nat → DownloadOutcome) :
    testAllRun ⟨[], opts⟩ po dl = .noProfiles [Event.errorEvent] := rfl

/-- C2 (counterexample): a RETEST batch carrying a non-empty explicit
id list and non-empty explicit links never emits `eof`: `testOne`'s
`wg.Done` is deferred only inside the `link == ""` branch, so with a
non-empty explicit link no pipeline ever signals the wait group and
the run blocks forever in `wg.Wait()` — the trace ends after the
`endone` events, with zero `eof` frames, refuting the claim for
RETEST batches. -/
theorem c2_retest_override_deadlocks :
    testAllRun ⟨["ss://x"], ⟨"G", "", "", "", 1, RETEST, [2], 5 * second, ["ss://x"]⟩⟩
        (fun _ => ⟨5, none⟩) (fun _ => ⟨[4], 7, none⟩)
      = .deadlock [Event.started, Event.gotserver 0 "ss://x" "G", Event.startping 2,
          Event.gotping 2 5, Event.startspeed 2, Event.gotspeed 2 4 4 4, Event.endone 2]
    ∧ [Event.started, Event.gotserver 0 "ss://x" "G", Event.startping 2,
        Event.gotping 2 5, Event.startspeed 2, Event.gotspeed 2 4 4 4,
        Event.endone 2].countP isEof = 0 := by
  refine ⟨rfl, rfl⟩

/-- C3 (counterexample): after consuming the samples 1, 1 the second
`gotspeed` event carries `avg = 0` — the loop adds `s / len(speeds)`
with int64 division applied to each term (`1/2 + 1/2 = 0`) — whereas
the claim's full-history integer quotient `(1 + 1) / 2` is 1. -/
theorem c3_second_avg_not_full_quotient :
    aggEvents 0 [1, 1] = [Event.gotspeed 0 1 1 1, Event.gotspeed 0 0 1 1]
    ∧ Int.tdiv (1 + 1) 2 = 1 ∧ (0 : Int) ≠ 1 := by
  refine ⟨rfl, rfl, by decide⟩

/-- C5 (counterexample): `gotspeed` events include the sentinel
`gotspeed(index,-1,-1,0)`; a pipeline whose download pushes one sample
of 5 and then returns a measured speed below 1 emits
`gotspeed(0,5,5,5)` followed by the sentinel, so the successive `max`
values 5, −1 are *not* non-decreasing and the sentinel's `avg = −1`
does not lie between 0 and its `max = −1`. -/
theorem c5_sentinel_event_violates_bounds :
    (testOneRun SpeedOnly [] 0 "x" ⟨0, none⟩ ⟨[5], 0, none⟩).map TestOneResult.events
      = some [Event.startspeed 0, Event.gotspeed 0 5 5 5, Event.gotspeed 0 (-1) (-1) 0]
    ∧ gotspeedMaxes [Event.startspeed 0, Event.gotspeed 0 5 5 5, Event.gotspeed 0 (-1) (-1) 0]
        = [5, -1]
    ∧ listNonDecr [5, -1] = false
    ∧ avgWithinMax (Event.gotspeed 0 (-1) (-1) 0) = false := by
  refine ⟨rfl, rfl, rfl, rfl⟩

/-- C10 (counterexample): when the stored link's caret prefix is
empty (here the stored link `"^secret"` begins with `^`), `testOne`
passes the empty split result to `pingLink`, whose own
`if link == "" { link = p.Links[index] }` reloads the *unsplit*
stored link — so the suffix after `^` does reach the ping primitive,
refuting the claim as stated. -/
theorem c10_empty_prefix_ping_gets_full_link :
    (testOneRun PingOnly ["^secret"] 0 "" ⟨5, none⟩ ⟨[], 0, none⟩).map TestOneResult.pinged
      = some (some "^secret")
    ∧ caretPrefix "^secret" = ""
    ∧ "^secret" ≠ "" := by
  refine ⟨rfl, rfl, by decide⟩

/-- In ping-only mode, or when the probe reports `elapse < 1` and (as
the spec's collaborator contract has it) a failed probe carries a
non-nil error, `pingLink` emits exactly `startping`, `gotping`, the
sentinel `gotspeed(index,-1,-1,0)`, and returns a non-nil error. -/
theorem pingLinkRun_short (mode : String) (links : List String) (index : Int) (link : String)
    (po : PingOutcome) (pEvs : List Event) (pinged pErr : Option String)
    (hmode : mode ≠ SpeedOnly)
    (hcase : mode = PingOnly ∨ po.elapse < 1)
    (hping : po.elapse < 1 → po.err ≠ none)
    (h : pingLinkRun mode links index link po = some (pEvs, pinged, pErr)) :
    pEvs = [Event.startping index, Event.gotping index po.elapse,
        Event.gotspeed index (-1) (-1) 0]
    ∧ pErr ≠ none := by
  unfold pingLinkRun at h
  rw [if_neg hmode] at h
  obtain ⟨l, -, hmap⟩ := Option.map_eq_some'.mp h
  by_cases he : po.elapse < 1
  · rw [if_pos he] at hmap
    obtain ⟨h1, -, h3⟩ := by simpa using hmap
    exact ⟨h1.symm, by rw [← h3]; exact hping he⟩
  · rcases hcase with hm | hlt
    · rw [if_neg he, if_pos hm] at hmap
      obtain ⟨h1, -, h3⟩ := by simpa using hmap
      exact ⟨h1.symm, by rw [← h3]; simp⟩
    · exact absurd hlt he

/-- C6: for a dispatched link whose mode is not speed-only, if the
mode is ping-only or the probe reports `elapse < 1` — and, per the
spec's collaborator contract (the ping primitive lives outside
`profile.go`), a probe reporting `elapse < 1` returns a non-nil error
— then the pipeline's trace is exactly `startping`, `gotping(index,
elapse)`, the sentinel `gotspeed(index,-1,-1,0)`, `endone(index)`,
and `startspeed` is never emitted. -/
theorem c6_ping_short_circuit (mode : String) (links : List String) (index : Int) (link : String)
    (po : PingOutcome) (dl : DownloadOutcome) (evs : List Event) (done : Bool)
    (hmode : mode ≠ SpeedOnly)
    (hcase : mode = PingOnly ∨ po.elapse < 1)
    (hping : po.elapse < 1 → po.err ≠ none)
    (hrun : pipelineRun mode links index link po dl = some (evs, done)) :
    evs = [Event.startping index, Event.gotping index po.elapse,
        Event.gotspeed index (-1) (-1) 0, Event.endone index]
    ∧ Event.startspeed index ∉ evs := by
  unfold pipelineRun at hrun
  obtain ⟨r, hr, hpair⟩ := Option.map_eq_some'.mp hrun
  obtain ⟨hevs, -⟩ : r.events ++ [Event.endone index] = evs ∧ r.wgDone = done := by
    simpa using hpair
  unfold testOneRun at hr
  obtain ⟨lw, -, hmap⟩ := Option.bind_eq_some.mp hr
  obtain ⟨trip, hp, htr⟩ := Option.map_eq_some'.mp hmap
  obtain ⟨h1, h2⟩ := pingLinkRun_short mode links index lw.1 po trip.1 trip.2.1 trip.2.2
    hmode hcase hping hp
  cases hpe : trip.2.2 with
  | none => exact absurd hpe h2
  | some e =>
    rw [hpe] at htr
    have hre : r.events = trip.1 := by rw [← htr]
    rw [← hevs, hre, h1]
    exact ⟨rfl, by simp⟩

/-- Witness for C6: a concrete ping-only pipeline (index 0, link
`"a"`, elapsed 5) produces exactly the short-circuit trace. -/
theorem c6_ping_short_circuit_witness :
    [Event.startping 0, Event.gotping 0 5, Event.gotspeed 0 (-1) (-1) 0, Event.endone 0]
      = [Event.startping 0, Event.gotping 0 5, Event.gotspeed 0 (-1) (-1) 0, Event.endone 0]
    ∧ Event.startspeed 0
        ∉ [Event.startping 0, Event.gotping 0 5, Event.gotspeed 0 (-1) (-1) 0, Event.endone 0] :=
  c6_ping_short_circuit PingOnly ["a"] 0 "a" ⟨5, none⟩ ⟨[], 0, none⟩
    [Event.startping 0, Event.gotping 0 5, Event.gotspeed 0 (-1) (-1) 0, Event.endone 0] false
    (by decide) (Or.inl rfl) (fun h => absurd h (by decide)) rfl

/-- The caret split drops everything from the first `^` on: the
prefix contains no `^`. -/
theorem takeToCaret_not_mem (cs : List Char) : '^' ∉ takeToCaret cs := by
  induction cs with
  | nil => simp [takeToCaret]
  | cons c rest ih =>
    by_cases hc : c = '^'
    · rw [takeToCaret, if_pos hc]
      simp
    · rw [takeToCaret, if_neg hc]
      intro hmem
      rcases List.mem_cons.mp hmem with h | h
      · exact hc h.symm
      · exact ih h

/-- The caret split is a prefix of the original, and what it drops is
empty or begins with `^`. -/
theorem takeToCaret_decomp (cs : List Char) :
    ∃ rest, cs = takeToCaret cs ++ rest ∧ (rest = [] ∨ ∃ r2, rest = '^' :: r2) := by
  induction cs with
  | nil => exact ⟨[], rfl, Or.inl rfl⟩
  | cons c r ih =>
    by_cases hc : c = '^'
    · refine ⟨c :: r, ?_, Or.inr ⟨r, by rw [hc]⟩⟩
      rw [takeToCaret, if_pos hc]
      rfl
    · obtain ⟨rest, h1, h2⟩ := ih
      refine ⟨rest, ?_, h2⟩
      rw [takeToCaret, if_neg hc, List.cons_append, ← h1]

/-- C10 (amended): a pipeline dispatched with an empty link override
tests the stored link's prefix up to (excluding) the first `^`: that
prefix contains no `^` and is an initial segment of the stored link;
the throughput primitive only ever receives this prefix; and the ping
primitive receives it too whenever the prefix is non-empty — but when
the stored link is empty or begins with `^`, `pingLink`'s own reload
hands the *full* stored link to the ping primitive (see the
counterexample). -/
theorem c10_caret_prefix_reaches_primitives (mode : String) (links : List String) (i : Nat)
    (stored : String) (po : PingOutcome) (dl : DownloadOutcome) (r : TestOneResult)
    (hi : links[i]? = some stored)
    (hrun : testOneRun mode links (Int.ofNat i) "" po dl = some r) :
    (∃ rest, stored.toList = (caretPrefix stored).toList ++ rest
        ∧ (rest = [] ∨ ∃ r2, rest = '^' :: r2))
    ∧ '^' ∉ (caretPrefix stored).toList
    ∧ (r.downloaded = none ∨ r.downloaded = some (caretPrefix stored))
    ∧ (caretPrefix stored ≠ "" →
        r.pinged = none ∨ r.pinged = some (caretPrefix stored)) := by
  have htl : (caretPrefix stored).toList = takeToCaret stored.toList := rfl
  have hres : testOneResolve links (Int.ofNat i) "" = some (caretPrefix stored, true) := by
    simp [testOneResolve, hi]
  unfold testOneRun at hrun
  rw [hres, Option.some_bind] at hrun
  obtain ⟨trip, hp, htr⟩ := Option.map_eq_some'.mp hrun
  have hpinged : r.pinged = trip.2.1 := by
    cases hpe : trip.2.2 with
    | none => rw [hpe] at htr; rw [← htr]
    | some e => rw [hpe] at htr; rw [← htr]
  refine ⟨by rw [htl]; exact takeToCaret_decomp stored.toList,
    by rw [htl]; exact takeToCaret_not_mem stored.toList, ?_, ?_⟩
  · cases hpe : trip.2.2 with
    | none =>
      rw [hpe] at htr
      right
      rw [← htr]
    | some e =>
      rw [hpe] at htr
      left
      rw [← htr]
  · intro hne
    by_cases hmode : mode = SpeedOnly
    · left
      rw [hpinged]
      unfold pingLinkRun at hp
      rw [if_pos hmode] at hp
      obtain rfl : ([], none, none) = trip := by simpa using hp
      rfl
    · right
      rw [hpinged]
      unfold pingLinkRun at hp
      rw [if_neg hmode] at hp
      obtain ⟨l, hl, hfl⟩ := Option.map_eq_some'.mp hp
      obtain rfl : caretPrefix stored = l := by
        unfold pingResolve at hl
        rw [if_neg hne] at hl
        simpa using hl
      rw [← hfl]
      split
      · rfl
      · split
        · rfl
        · rfl

/-- Witness for C10 at a concrete stored link `"vmess://abc^extra"`
with a non-empty caret prefix. -/
theorem c10_caret_prefix_witness :
    (∃ rest, ("vmess://abc^extra").toList = (caretPrefix "vmess://abc^extra").toList ++ rest
        ∧ (rest = [] ∨ ∃ r2, rest = '^' :: r2))
    ∧ '^' ∉ (caretPrefix "vmess://abc^extra").toList
    ∧ ((some "vmess://abc" : Option String) = none
        ∨ (some "vmess://abc" : Option String) = some (caretPrefix "vmess://abc^extra"))
    ∧ (caretPrefix "vmess://abc^extra" ≠ "" →
        (some "vmess://abc" : Option String) = none
        ∨ (some "vmess://abc" : Option String) = some (caretPrefix "vmess://abc^extra")) := by
  have h := c10_caret_prefix_reaches_primitives "" ["vmess://abc^extra"] 0 "vmess://abc^extra"
    ⟨5, none⟩ ⟨[4, 6], 7, none⟩
    ⟨[Event.startping 0, Event.gotping 0 5, Event.startspeed 0,
        Event.gotspeed 0 4 4 4, Event.gotspeed 0 5 6 6],
      true, some "vmess://abc", some "vmess://abc", none⟩ rfl rfl
  exact h

/-- Folding `+ f s` over a list accumulates the sum of the mapped
list. -/
theorem foldl_add_map {α : Type} (f : α → Int) (l : List α) (c : Int) :
    l.foldl (fun a s => a + f s) c = c + (l.map f).sum := by
  induction l generalizing c with
  | nil => simp
  | cons x xs ih => simp [ih, add_assoc]

/-- The Go loop `avg += s / int64(len(speeds))` computes the sum of
the per-term truncated quotients. -/
theorem aggAvg_eq_perTermAvg (l : List Int) : aggAvg l = perTermAvg l := by
  unfold aggAvg perTermAvg
  rw [foldl_add_map]
  simp

/-- Bounds of the per-term-divided average: with a non-empty history
of samples within `[0, M]`, the computed average also lies in
`[0, M]`. -/
theorem aggAvg_bounds (l : List Int) (M : Int) (hM : 0 ≤ M) (hl : l ≠ [])
    (h1 : ∀ x ∈ l, 0 ≤ x) (h2 : ∀ x ∈ l, x ≤ M) : 0 ≤ aggAvg l ∧ aggAvg l ≤ M := by
  have hn : 0 < (l.length : Int) := by
    have := List.length_pos.mpr hl
    exact_mod_cast this
  rw [aggAvg_eq_perTermAvg]
  unfold perTermAvg
  constructor
  · apply List.sum_nonneg
    intro x hx
    obtain ⟨s, hs, rfl⟩ := List.mem_map.mp hx
    exact Int.tdiv_nonneg (h1 s hs) hn.le
  · calc (l.map fun s => Int.tdiv s (l.length : Int)).sum
        ≤ (l.map fun s => Int.tdiv s (l.length : Int)).length • (Int.tdiv M (l.length : Int)) := by
          apply List.sum_le_card_nsmul
          intro x hx
          obtain ⟨s, hs, rfl⟩ := List.mem_map.mp hx
          rw [Int.tdiv_eq_ediv (h1 s hs) hn.le, Int.tdiv_eq_ediv hM hn.le]
          exact Int.ediv_le_ediv hn (h2 s hs)
      _ = (l.length : Int) * Int.tdiv M (l.length : Int) := by
          rw [List.length_map, nsmul_eq_mul]
      _ ≤ M := by
          rw [Int.tdiv_eq_ediv hM hn.le, mul_comm]
          exact Int.ediv_mul_le M hn.ne'

/-- A `listNonDecrFrom` chain is in particular non-decreasing. -/
theorem listNonDecr_of_from (lo : Int) (l : List Int) (h : listNonDecrFrom lo l = true) :
    listNonDecr l = true := by
  cases l with
  | nil => rfl
  | cons a rest =>
    rw [listNonDecr]
    rw [listNonDecrFrom, Bool.and_eq_true] at h
    exact h.2

/-- Invariant of the aggregator loop: starting from a state whose
history is bounded by a non-negative running maximum, the emitted
`max` values form a non-decreasing chain above the current maximum,
and every emitted average lies within `[0, max]`. -/
theorem aggRun_bounds (idx : Int) (samples : List Int) : ∀ st : AggState,
    0 ≤ st.mx → (∀ x ∈ st.speeds, x ≤ st.mx) → (∀ x ∈ st.speeds, 0 ≤ x) →
    listNonDecrFrom st.mx (gotspeedMaxes (aggRun idx st samples)) = true
    ∧ (aggRun idx st samples).all avgWithinMax = true := by
  induction samples with
  | nil =>
    intro st _ _ _
    simp [aggRun, gotspeedMaxes, listNonDecrFrom]
  | cons s rest ih =>
    intro st hmx hsp hnn
    by_cases hs : s < 0
    · simp [aggRun, hs, gotspeedMaxes, listNonDecrFrom]
    · push_neg at hs
      have hstep : aggRun idx st (s :: rest)
          = Event.gotspeed idx (aggAvg (st.speeds ++ [s]))
              (if st.mx < s then s else st.mx) s
            :: aggRun idx ⟨st.speeds ++ [s], if st.mx < s then s else st.mx⟩ rest := by
        rw [aggRun, if_neg (not_lt.mpr hs)]
        rfl
      have hle : st.mx ≤ if st.mx < s then s else st.mx := by
        split <;> omega
      have hsle : s ≤ if st.mx < s then s else st.mx := by
        split <;> omega
      have hmx'0 : 0 ≤ if st.mx < s then s else st.mx := le_trans hmx hle
      have hall_le : ∀ x ∈ st.speeds ++ [s], x ≤ if st.mx < s then s else st.mx := by
        intro x hx
        rcases List.mem_append.mp hx with h | h
        · exact le_trans (hsp x h) hle
        · rw [List.mem_singleton.mp h]
          exact hsle
      have hall_nn : ∀ x ∈ st.speeds ++ [s], 0 ≤ x := by
        intro x hx
        rcases List.mem_append.mp hx with h | h
        · exact hnn x h
        · rw [List.mem_singleton.mp h]
          exact hs
      obtain ⟨havg0, havgle⟩ := aggAvg_bounds (st.speeds ++ [s])
        (if st.mx < s then s else st.mx) hmx'0 (by simp) hall_nn hall_le
      obtain ⟨ih1, ih2⟩ := ih ⟨st.speeds ++ [s], if st.mx < s then s else st.mx⟩
        hmx'0 hall_le hall_nn
      rw [hstep]
      constructor
      · simp only [gotspeedMaxes, listNonDecrFrom, Bool.and_eq_true, decide_eq_true_eq]
        exact ⟨hle, ih1⟩
      · simp only [List.all_cons, Bool.and_eq_true]
        refine ⟨?_, ih2⟩
        simp [avgWithinMax, havg0, havgle]

/-- C5 (amended): restricted to the aggregator's own (measurement)
`gotspeed` events — excluding the sentinel `gotspeed(index,-1,-1,0)`
frames, which carry `max = -1` — the successive `max` values of one
link are non-decreasing and every `avg` lies between 0 and that
event's `max` inclusive, for every sample sequence. -/
theorem c5_measurement_gotspeed_bounds (idx : Int) (samples : List Int) :
    listNonDecr (gotspeedMaxes (aggEvents idx samples)) = true
    ∧ (aggEvents idx samples).all avgWithinMax = true := by
  obtain ⟨h1, h2⟩ := aggRun_bounds idx samples ⟨[], 0⟩ le_rfl (by simp) (by simp)
  exact ⟨listNonDecr_of_from 0 _ h1, h2⟩

/-- `max` written as the Go comparison `if a < b then b else a`. -/
theorem max_eq_if (a b : Int) : max a b = if a < b then b else a := by
  rw [max_def]
  split <;> split <;> omega

/-- Appending one sample updates the running maximum by the Go
comparison. -/
theorem runMax_append (l : List Int) (x : Int) :
    runMax (l ++ [x]) = if runMax l < x then x else runMax l := by
  unfold runMax
  rw [List.foldl_append]
  simp [max_eq_if]

/-- Trace of the aggregator from an arbitrary consistent state: the
k-th emitted event carries the recomputed average and the running
maximum of the state history extended by the first k+1 samples, and
the k-th sample itself. -/
theorem aggRun_characterization (idx : Int) (samples : List Nat) : ∀ pre : List Int,
    aggRun idx ⟨pre, runMax pre⟩ (samples.map Int.ofNat)
      = (List.range samples.length).map (fun k =>
          Event.gotspeed idx (aggAvg (pre ++ (samples.take (k+1)).map Int.ofNat))
            (runMax (pre ++ (samples.take (k+1)).map Int.ofNat))
            (Int.ofNat (samples.getD k 0))) := by
  induction samples with
  | nil =>
    intro pre
    simp [aggRun]
  | cons s rest ih =>
    intro pre
    have hstep : aggRun idx ⟨pre, runMax pre⟩ (Int.ofNat s :: rest.map Int.ofNat)
        = Event.gotspeed idx (aggAvg (pre ++ [Int.ofNat s]))
            (if runMax pre < Int.ofNat s then Int.ofNat s else runMax pre) (Int.ofNat s)
          :: aggRun idx ⟨pre ++ [Int.ofNat s],
              if runMax pre < Int.ofNat s then Int.ofNat s else runMax pre⟩
            (rest.map Int.ofNat) := by
      have hneg : ¬ Int.ofNat s < 0 := (Int.ofNat_nonneg s).not_lt
      rw [aggRun, if_neg hneg]
      rfl
    rw [List.map_cons, hstep, ← runMax_append, ih (pre ++ [Int.ofNat s])]
    rw [List.length_cons, List.range_succ_eq_map, List.map_cons, List.map_map]
    congr 1
    apply List.map_congr_left
    intro k _
    simp [List.append_assoc]

/-- C3 (amended): the `avg` carried by the n-th `gotspeed` event of a
link is the average recomputed over the full history with int64
(truncating) division applied to *each term before summation* —
`Σᵢ (sᵢ div n)` — not the full-sum integer quotient
`(s₁ + … + sₙ) / n` (see the counterexample, where the two differ). -/
theorem c3_avg_recomputed_per_term (idx : Int) (samples : List Nat) :
    aggEvents idx (samples.map Int.ofNat)
      = (List.range samples.length).map (fun k =>
          Event.gotspeed idx (perTermAvg ((samples.take (k+1)).map Int.ofNat))
            (runMax ((samples.take (k+1)).map Int.ofNat))
            (Int.ofNat (samples.getD k 0))) := by
  unfold aggEvents
  have h0 : (⟨[], 0⟩ : AggState) = ⟨[], runMax []⟩ := rfl
  rw [h0, aggRun_characterization idx samples []]
  simp [aggAvg_eq_perTermAvg]

/-- The aggregator emits only `gotspeed` events: any predicate false
on `gotspeed` counts zero over its trace. -/
theorem aggRun_countP (p : Event → Bool) (hp : ∀ i a m c, p (Event.gotspeed i a m c) = false)
    (idx : Int) (samples : List Int) : ∀ st : AggState, (aggRun idx st samples).countP p = 0 := by
  induction samples with
  | nil => intro st; rfl
  | cons s rest ih =>
    intro st
    by_cases hs : s < 0
    · simp [aggRun, hs]
    · simp [aggRun, hs, aggStep, List.countP_cons, hp, ih]

/-- `pingLink` emits only `startping`, `gotping` and `gotspeed`
frames: any predicate false on those counts zero over its trace. -/
theorem pingLinkRun_events_count (p : Event → Bool)
    (hp1 : ∀ i, p (Event.startping i) = false)
    (hp2 : ∀ i e, p (Event.gotping i e) = false)
    (hp3 : ∀ i a m c, p (Event.gotspeed i a m c) = false)
    (mode : String) (links : List String) (index : Int) (link : String) (po : PingOutcome)
    (trip : List Event × Option String × Option String)
    (h : pingLinkRun mode links index link po = some trip) :
    trip.1.countP p = 0 := by
  unfold pingLinkRun at h
  split at h
  · obtain rfl : ([], none, none) = trip := Option.some.inj h
    rfl
  · obtain ⟨l, -, hfl⟩ := Option.map_eq_some'.mp h
    rw [← hfl]
    split
    · simp [List.countP_cons, hp1, hp2, hp3]
    · split
      · simp [List.countP_cons, hp1, hp2, hp3]
      · simp [List.countP_cons, hp1, hp2]

/-- `testOne` emits only `startping`, `gotping`, `gotspeed` and
`startspeed` frames: any predicate false on those counts zero over
its trace. -/
theorem testOneRun_events_count (p : Event → Bool)
    (hp1 : ∀ i, p (Event.startping i) = false)
    (hp2 : ∀ i e, p (Event.gotping i e) = false)
    (hp3 : ∀ i a m c, p (Event.gotspeed i a m c) = false)
    (hp4 : ∀ i, p (Event.startspeed i) = false)
    (mode : String) (links : List String) (index : Int) (link : String)
    (po : PingOutcome) (dl : DownloadOutcome) (r : TestOneResult)
    (h : testOneRun mode links index link po dl = some r) :
    r.events.countP p = 0 := by
  unfold testOneRun at h
  obtain ⟨lw, -, hmap⟩ := Option.bind_eq_some.mp h
  obtain ⟨trip, hpl, htr⟩ := Option.map_eq_some'.mp hmap
  have hping := pingLinkRun_events_count p hp1 hp2 hp3 mode links index lw.1 po trip hpl
  have hagg : (aggEvents index dl.samples).countP p = 0 :=
    aggRun_countP p hp3 index dl.samples ⟨[], 0⟩
  have hif : ((if dl.speed < 1 then [Event.gotspeed index (-1) (-1) 0] else []) :
      List Event).countP p = 0 := by
    split
    · simp [List.countP_cons, hp3]
    · rfl
  cases hpe : trip.2.2 with
  | some e =>
    rw [hpe] at htr
    rw [← htr]
    exact hping
  | none =>
    rw [hpe] at htr
    rw [← htr]
    simp [List.countP_append, List.countP_cons, hping, hp4, hagg, hif]

/-- With an empty link override and an in-range index, `testOne`
cannot panic; it signals the wait group and emits neither `endone`
nor `eof` frames itself. -/
theorem testOneRun_no_override (mode : String) (links : List String) (i : Nat)
    (hi : i < links.length) (po : PingOutcome) (dl : DownloadOutcome) :
    ∃ r, testOneRun mode links (Int.ofNat i) "" po dl = some r ∧ r.wgDone = true
      ∧ r.events.countP isEndone = 0 ∧ r.events.countP isEof = 0 := by
  obtain ⟨stored, hst⟩ : ∃ s, links[i]? = some s := ⟨links[i], List.getElem?_eq_getElem hi⟩
  have hres : testOneResolve links (Int.ofNat i) "" = some (caretPrefix stored, true) := by
    simp [testOneResolve, hst]
  have hpr : ∃ l', pingResolve links (Int.ofNat i) (caretPrefix stored) = some l' := by
    unfold pingResolve
    by_cases hl : caretPrefix stored = ""
    · rw [if_pos hl]
      refine ⟨stored, ?_⟩
      have h0 : (0 : Int) ≤ Int.ofNat i := Int.ofNat_nonneg i
      rw [if_pos h0]
      simpa using hst
    · rw [if_neg hl]
      exact ⟨_, rfl⟩
  have hpl : ∃ trip, pingLinkRun mode links (Int.ofNat i) (caretPrefix stored) po = some trip := by
    unfold pingLinkRun
    by_cases hm : mode = SpeedOnly
    · rw [if_pos hm]
      exact ⟨_, rfl⟩
    · rw [if_neg hm]
      obtain ⟨l', hl'⟩ := hpr
      rw [hl']
      exact ⟨_, rfl⟩
  obtain ⟨trip, htrip⟩ := hpl
  have hrun : testOneRun mode links (Int.ofNat i) "" po dl
      = some (match trip.2.2 with
          | some e => ⟨trip.1, true, trip.2.1, none, some e⟩
          | none =>
            ⟨trip.1 ++ Event.startspeed (Int.ofNat i) ::
                (aggEvents (Int.ofNat i) dl.samples ++
                  (if dl.speed < 1 then [Event.gotspeed (Int.ofNat i) (-1) (-1) 0] else [])),
              true, trip.2.1, some (caretPrefix stored), dl.err⟩) := by
    unfold testOneRun
    rw [hres, Option.some_bind, htrip, Option.map_some']
  refine ⟨_, hrun, ?_, ?_, ?_⟩
  · cases trip.2.2 <;> rfl
  · exact testOneRun_events_count isEndone (fun _ => rfl) (fun _ _ => rfl)
      (fun _ _ _ _ => rfl) (fun _ => rfl) mode links (Int.ofNat i) "" po dl _ hrun
  · exact testOneRun_events_count isEof (fun _ => rfl) (fun _ _ => rfl)
      (fun _ _ _ _ => rfl) (fun _ => rfl) mode links (Int.ofNat i) "" po dl _ hrun

/-- With an empty link override and an in-range index, the dispatched
goroutine completes, signals the wait group, and contributes exactly
one `endone` and no `eof`. -/
theorem pipelineRun_no_override (mode : String) (links : List String) (i : Nat)
    (hi : i < links.length) (po : PingOutcome) (dl : DownloadOutcome) :
    ∃ evs, pipelineRun mode links (Int.ofNat i) "" po dl = some (evs, true)
      ∧ evs.countP isEndone = 1 ∧ evs.countP isEof = 0 := by
  obtain ⟨r, hr, hdone, h1, h0⟩ := testOneRun_no_override mode links i hi po dl
  refine ⟨r.events ++ [Event.endone (Int.ofNat i)], ?_, ?_, ?_⟩
  · unfold pipelineRun
    rw [hr, Option.map_some', hdone]
  · simp [List.countP_append, List.countP_cons, h1, isEndone]
  · simp [List.countP_append, List.countP_cons, h0, isEof]

/-- Without the retest overrides, the dispatch loop over any set of
in-range positions completes: every pipeline signals the wait group,
so `wg.Wait()` returns and the single `eof` is appended; the
pipelines contribute one `endone` per position and no `eof`. -/
theorem runPipelines_no_override (b : Batch) (po : Nat → PingOutcome)
    (dl : Nat → DownloadOutcome) (hov : b.opts.testIDs = [] ∨ b.opts.links = []) :
    ∀ is : List Nat, ∀ evs : List Event, (∀ i ∈ is, i < b.links.length) →
    ∃ tail, runPipelines b po dl is evs true = .completed (evs ++ (tail ++ [Event.eof]))
      ∧ tail.countP isEndone = is.length ∧ tail.countP isEof = 0 := by
  intro is
  induction is with
  | nil =>
    intro evs _
    exact ⟨[], by simp [runPipelines], rfl, rfl⟩
  | cons i rest ih =>
    intro evs hmem
    have hdp : dispatchParams b.opts i = some (Int.ofNat i, "") := by
      unfold dispatchParams
      rcases hov with h | h <;> simp [h]
    obtain ⟨pevs, hpe, hc1, hc0⟩ := pipelineRun_no_override b.opts.speedTestMode b.links i
      (hmem i (List.mem_cons_self i rest)) (po i) (dl i)
    obtain ⟨tail, ht, ht1, ht0⟩ := ih (evs ++ pevs)
      (fun j hj => hmem j (List.mem_cons_of_mem i hj))
    refine ⟨pevs ++ tail, ?_, ?_, ?_⟩
    · rw [runPipelines, hdp]
      simp only [hpe, Bool.and_self]
      rw [ht]
      simp [List.append_assoc]
    · simp only [List.countP_append, hc1, ht1, List.length_cons]
      omega
    · simp only [List.countP_append, hc0, ht0]

/-- C2 (amended): for every batch of N ≥ 1 links with no cancellation,
*provided the batch does not carry the retest overrides* (empty
`testids` or empty explicit links), the run completes and emits
exactly one `eof`, preceded by exactly N `endone` events: the trace is
`pre ++ [eof]` with no `eof` and exactly N `endone` frames in `pre`.
For RETEST batches with non-empty explicit ids and links the claim
fails: no pipeline signals the completion barrier and `eof` is never
emitted (see the counterexample). -/
theorem c2_completion_without_override (b : Batch) (po : Nat → PingOutcome)
    (dl : Nat → DownloadOutcome) (hN : 1 ≤ b.links.length)
    (hov : b.opts.testIDs = [] ∨ b.opts.links = []) :
    ∃ pre, testAllRun b po dl = .completed (pre ++ [Event.eof])
      ∧ pre.countP isEof = 0 ∧ pre.countP isEndone = b.links.length := by
  have hmap0 : ∀ p : Event → Bool, (∀ j l g, p (Event.gotserver j l g) = false) →
      ((List.range b.links.length).map
        (fun i => Event.gotserver (Int.ofNat i) (b.links.getD i "") b.opts.groupName)).countP p
        = 0 := by
    intro p hp
    apply List.countP_eq_zero.mpr
    intro e he
    obtain ⟨j, -, rfl⟩ := List.mem_map.mp he
    simp [hp]
  unfold testAllRun
  rw [if_neg (by omega)]
  obtain ⟨tail, ht, h1, h0⟩ := runPipelines_no_override b po dl hov (List.range b.links.length)
    (Event.started :: (List.range b.links.length).map
      (fun i => Event.gotserver (Int.ofNat i) (b.links.getD i "") b.opts.groupName))
    (fun i hi => List.mem_range.mp hi)
  refine ⟨(Event.started :: (List.range b.links.length).map
      (fun i => Event.gotserver (Int.ofNat i) (b.links.getD i "") b.opts.groupName)) ++ tail,
    ?_, ?_, ?_⟩
  · rw [ht]
    simp [List.append_assoc]
  · simp only [List.countP_append, List.countP_cons, h0, hmap0 isEof (fun _ _ _ => rfl)]
    simp [isEof]
  · simp only [List.countP_append, List.countP_cons, h1,
      hmap0 isEndone (fun _ _ _ => rfl), List.length_range]
    simp [isEndone]

/-- Witness for C2 at a concrete one-link legacy batch: the run
completes with one `eof` preceded by one `endone`. -/
theorem c2_completion_witness :
    ∃ pre, testAllRun ⟨["vmess://abc"], ⟨"G", "", "", "", 3, ALLTEST, [], 30 * second, []⟩⟩
        (fun _ => ⟨5, none⟩) (fun _ => ⟨[4], 7, none⟩)
      = .completed (pre ++ [Event.eof])
      ∧ pre.countP isEof = 0 ∧ pre.countP isEndone = 1 :=
  c2_completion_without_override
    ⟨["vmess://abc"], ⟨"G", "", "", "", 3, ALLTEST, [], 30 * second, []⟩⟩
    (fun _ => ⟨5, none⟩) (fun _ => ⟨[4], 7, none⟩) (by decide) (Or.inl rfl)

/-- The Go override condition holds exactly when both explicit lists
are non-empty. -/
theorem overrideActive_iff (o : GoOptions) :
    overrideActive o = true ↔ (o.testIDs ≠ [] ∧ o.links ≠ []) := by
  simp [overrideActive, List.isEmpty_iff]

/-- C8: the dispatch loop reads `TestIDs[i]` and `Options.Links[i]`
for every position `i` whenever both override lists are non-empty,
and those reads are all in bounds for a batch of `n` links exactly
when both lists have length at least `n` (first conjunct: the bounds
equation).  No parsing step enforces this: `parseRetestMessage`
happily accepts one test id with two links (second conjunct).  Running
such a batch panics in the dispatch loop after the first pipeline
(third conjunct). -/
theorem c8_dispatch_reads (opts : GoOptions) (n : Nat) :
    (dispatchInBounds opts n
      = (!overrideActive opts
          || (decide (n ≤ opts.testIDs.length) && decide (n ≤ opts.links.length))))
    ∧ parseRetestMessage (some ⟨"G", "", "", "", 1, RETEST, [1], 20, ["a", "b"]⟩)
        = .ok (["a", "b"], ⟨"G", "", "", "", 1, RETEST, [1], 20 * second, ["a", "b"]⟩)
    ∧ testAllRun ⟨["a", "b"], ⟨"G", "", "", "", 1, RETEST, [1], 20, ["x", "y"]⟩⟩
        (fun _ => ⟨5, none⟩) (fun _ => ⟨[], 0, none⟩)
      = .dispatchPanic [Event.started, Event.gotserver 0 "a" "G", Event.gotserver 1 "b" "G",
          Event.startping 1, Event.gotping 1 5, Event.startspeed 1,
          Event.gotspeed 1 (-1) (-1) 0, Event.endone 1] := by
  refine ⟨?_, rfl, rfl⟩
  rw [Bool.eq_iff_iff]
  simp only [dispatchInBounds, List.all_eq_true, List.mem_range, Bool.or_eq_true,
    Bool.not_eq_true', Bool.and_eq_true, decide_eq_true_eq]
  constructor
  · intro h
    by_cases hov : overrideActive opts = true
    · right
      obtain ⟨hids, hlinks⟩ := (overrideActive_iff opts).mp hov
      constructor
      · by_contra hlt
        push_neg at hlt
        have hread := h opts.testIDs.length hlt
        unfold dispatchParams at hread
        rw [if_pos ⟨hids, hlinks⟩, List.get?_eq_none.mpr le_rfl] at hread
        simp at hread
      · by_contra hlt
        push_neg at hlt
        have hread := h opts.links.length hlt
        unfold dispatchParams at hread
        rw [if_pos ⟨hids, hlinks⟩, List.get?_eq_none.mpr le_rfl] at hread
        cases hread2 : opts.testIDs.get? opts.links.length <;> simp [hread2] at hread
    · left
      simpa using hov
  · intro h i hi
    unfold dispatchParams
    rcases h with h | ⟨h1, h2⟩
    · rw [if_neg (fun hc => absurd ((overrideActive_iff opts).mpr hc) (by simp [h]))]
      rfl
    · by_cases hc : opts.testIDs ≠ [] ∧ opts.links ≠ []
      · rw [if_pos hc]
        obtain ⟨id, hid⟩ : ∃ id, opts.testIDs.get? i = some id :=
          ⟨opts.testIDs.get ⟨i, lt_of_lt_of_le hi h1⟩, List.get?_eq_get (lt_of_lt_of_le hi h1)⟩
        obtain ⟨l, hl⟩ : ∃ l, opts.links.get? i = some l :=
          ⟨opts.links.get ⟨i, lt_of_lt_of_le hi h2⟩, List.get?_eq_get (lt_of_lt_of_le hi h2)⟩
        rw [hid, hl]
        rfl
      · rw [if_neg hc]
        rfl

/-- A successful case-insensitive strip lower-cases to the pattern. -/
theorem stripCI_lower (pat : List Char) : ∀ (cs pre rest : List Char),
    stripCI pat cs = some (pre, rest) → pre.map Char.toLower = pat := by
  induction pat with
  | nil =>
    intro cs pre rest h
    obtain ⟨h1, -⟩ : ([] : List Char) = pre ∧ cs = rest := by simpa [stripCI] using h
    rw [← h1]
    rfl
  | cons p ps ih =>
    intro cs pre rest h
    cases cs with
    | nil => simp [stripCI] at h
    | cons c rest0 =>
      unfold stripCI at h
      by_cases hc : c.toLower = p
      · rw [if_pos hc] at h
        obtain ⟨q, hq, hmap⟩ := Option.map_eq_some'.mp h
        obtain ⟨h1, -⟩ : c :: q.1 = pre ∧ q.2 = rest := by simpa using hmap
        rw [← h1, List.map_cons, hc, ih rest0 q.1 q.2 hq]
      · rw [if_neg hc] at h
        exact absurd h (by simp)

/-- The lazy-group worker consumes the accumulator plus some suffix,
and its continuation succeeded on a remainder. -/
theorem dotAux_shape {β : Type} (sep : Char) (k : List Char → Option β) :
    ∀ (cs acc pre : List Char) (b : β),
    dotAux sep k acc cs = some (pre, b) →
    (∃ t, pre = acc.reverse ++ t) ∧ (∃ rest, k rest = some b) := by
  intro cs
  induction cs with
  | nil =>
    intro acc pre b h
    simp [dotAux] at h
  | cons c rest ih =>
    intro acc pre b h
    unfold dotAux at h
    cases hx : (if c = sep then (k rest).map (fun b => (acc.reverse, b)) else none) with
    | some v =>
      rw [hx] at h
      obtain rfl : v = (pre, b) := by simpa [Option.orElse] using h
      by_cases hc : c = sep
      · rw [if_pos hc] at hx
        obtain ⟨b', hb', hv⟩ := Option.map_eq_some'.mp hx
        obtain ⟨h1, h2⟩ : acc.reverse = pre ∧ b' = b := by simpa using hv
        exact ⟨⟨[], by rw [← h1]; simp⟩, ⟨rest, by rw [hb', h2]⟩⟩
      · rw [if_neg hc] at hx
        exact absurd hx (by simp)
    | none =>
      rw [hx] at h
      simp only [Option.orElse, Option.none_orElse] at h
      by_cases hc : c = '\n'
      · rw [if_pos hc] at h
        exact absurd h (by simp)
      · rw [if_neg hc] at h
        obtain ⟨⟨t, hpre⟩, hk⟩ := ih (c :: acc) pre b h
        refine ⟨⟨c :: t, ?_⟩, hk⟩
        rw [hpre]
        simp

/-- A successful lazy group `(.+?)sep` is non-empty and its
continuation succeeded on some remainder. -/
theorem dotLazy_shape {β : Type} (sep : Char) (k : List Char → Option β) (cs pre : List Char)
    (b : β) (h : dotLazy sep k cs = some (pre, b)) :
    pre ≠ [] ∧ ∃ rest, k rest = some b := by
  cases cs with
  | nil => simp [dotLazy] at h
  | cons c rest =>
    rw [dotLazy] at h
    by_cases hc : c = '\n'
    · rw [if_pos hc] at h
      exact absurd h (by simp)
    · rw [if_neg hc] at h
      obtain ⟨⟨t, hpre⟩, hk⟩ := dotAux_shape sep k rest [c] pre b h
      refine ⟨?_, hk⟩
      rw [hpre]
      simp

/-- A successful `k`-digit port parse yields exactly `k` digits and a
non-empty `?`/`#` suffix of non-space characters. -/
theorem tryDig_shape (k : Nat) (cs digits suf rem : List Char)
    (h : tryDig k cs = some ((digits, suf), rem)) :
    digits.length = k ∧ digits.all Char.isDigit = true
    ∧ ∃ c run, suf = c :: run ∧ (c = '?' ∨ c = '#') ∧ run ≠ []
        ∧ run.all (fun x => !goSpace x) = true := by
  unfold tryDig at h
  split at h
  · rename_i hcond
    obtain ⟨c, -, hbind⟩ := Option.bind_eq_some.mp h
    split at hbind
    · rename_i hc
      split at hbind
      · exact absurd hbind (by simp)
      · rename_i hrunne
        obtain ⟨⟨hdig, hsuf⟩, -⟩ : (cs.take k = digits
              ∧ c :: (cs.drop k).tail.takeWhile (fun x => !goSpace x) = suf)
            ∧ (cs.drop k).tail.drop
                ((cs.drop k).tail.takeWhile (fun x => !goSpace x)).length = rem := by
          simpa using hbind
        refine ⟨by rw [← hdig]; exact hcond.1, by rw [← hdig]; exact hcond.2,
          c, (cs.drop k).tail.takeWhile (fun x => !goSpace x), hsuf.symm, hc, ?_, ?_⟩
        · intro hemp
          rw [hemp] at hrunne
          exact hrunne rfl
        · apply List.all_eq_true.mpr
          intro x hx
          have hpx := List.mem_takeWhile_imp hx
          exact hpx
    · exact absurd hbind (by simp)
  · exact absurd h (by simp)

/-- A successful `([0-9]{2,5})([?#][^\s]+)` parse yields 2 to 5
digits and the non-empty suffix. -/
theorem digitsSuffix_shape (cs digits suf rem : List Char)
    (h : digitsSuffix cs = some ((digits, suf), rem)) :
    2 ≤ digits.length ∧ digits.length ≤ 5 ∧ digits.all Char.isDigit = true
    ∧ ∃ c run, suf = c :: run ∧ (c = '?' ∨ c = '#') ∧ run ≠ []
        ∧ run.all (fun x => !goSpace x) = true := by
  unfold digitsSuffix at h
  cases h5 : tryDig 5 cs with
  | some v =>
    rw [h5] at h
    obtain rfl : v = ((digits, suf), rem) := by simpa [Option.orElse] using h
    obtain ⟨hl, hd, hs⟩ := tryDig_shape 5 cs digits suf rem h5
    exact ⟨by omega, by omega, hd, hs⟩
  | none =>
    rw [h5] at h
    simp only [Option.orElse, Option.none_orElse] at h
    cases h4 : tryDig 4 cs with
    | some v =>
      rw [h4] at h
      obtain rfl : v = ((digits, suf), rem) := by simpa [Option.orElse] using h
      obtain ⟨hl, hd, hs⟩ := tryDig_shape 4 cs digits suf rem h4
      exact ⟨by omega, by omega, hd, hs⟩
    | none =>
      rw [h4] at h
      simp only [Option.orElse, Option.none_orElse] at h
      cases h3 : tryDig 3 cs with
      | some v =>
        rw [h3] at h
        obtain rfl : v = ((digits, suf), rem) := by simpa [Option.orElse] using h
        obtain ⟨hl, hd, hs⟩ := tryDig_shape 3 cs digits suf rem h3
        exact ⟨by omega, by omega, hd, hs⟩
      | none =>
        rw [h3] at h
        simp only [Option.orElse, Option.none_orElse] at h
        obtain ⟨hl, hd, hs⟩ := tryDig_shape 2 cs digits suf rem h
        exact ⟨by omega, by omega, hd, hs⟩

/-- Every match of the `(ss|trojan)://…` alternative has the claimed
shape. -/
theorem tryBranch2_shape (cs m rem : List Char) (h : tryBranch2 cs = some (m, rem)) :
    branch2Shape m := by
  unfold tryBranch2 at h
  obtain ⟨sr, hS, hmap⟩ := Option.bind_eq_some.mp h
  obtain ⟨cb, hd, hcb⟩ := Option.map_eq_some'.mp hmap
  have hschemel : sr.1.map Char.toLower = "ss://".toList
      ∨ sr.1.map Char.toLower = "trojan://".toList := by
    cases hss : stripCI ("ss://".toList) cs with
    | some q =>
      rw [hss] at hS
      obtain rfl : q = sr := by simpa [Option.orElse] using hS
      exact Or.inl (stripCI_lower ("ss://".toList) cs q.1 q.2 (by rw [hss]))
    | none =>
      rw [hss] at hS
      simp only [Option.orElse, Option.none_orElse] at hS
      exact Or.inr (stripCI_lower ("trojan://".toList) cs sr.1 sr.2 (by rw [hS]))
  obtain ⟨hcred, r1, hk1⟩ := dotLazy_shape '@' (dotLazy ':' digitsSuffix) sr.2 cb.1 cb.2 hd
  obtain ⟨hhost, r2, hk2⟩ := dotLazy_shape ':' digitsSuffix r1 cb.2.1 cb.2.2 hk1
  obtain ⟨hd2, hd5, hdig, c, run, hsuf, hc, hrun, hallrun⟩ :=
    digitsSuffix_shape r2 cb.2.2.1.1 cb.2.2.1.2 cb.2.2.2 hk2
  obtain ⟨hm, -⟩ : (sr.1 ++ cb.1 ++ '@' :: cb.2.1 ++ ':' :: cb.2.2.1.1 ++ cb.2.2.1.2 = m)
      ∧ cb.2.2.2 = rem := by simpa using hcb
  exact ⟨sr.1, cb.1, cb.2.1, cb.2.2.1.1, c, run, by rw [← hm, hsuf], hschemel, hcred, hhost,
    hd2, hd5, hdig, hc, hrun, hallrun⟩

/-- Every `Branch.b2`-tagged match of the scan comes from a
successful `tryBranch2` at some position. -/
theorem findAllAux_b2_mem (m : List Char) :
    ∀ (fuel : Nat) (cs : List Char), (Branch.b2, m) ∈ findAllAux fuel cs →
    ∃ cs' rem, tryBranch2 cs' = some (m, rem) := by
  intro fuel
  induction fuel with
  | zero =>
    intro cs h
    simp [findAllAux] at h
  | succ fuel ih =>
    intro cs h
    cases cs with
    | nil => simp [findAllAux] at h
    | cons c rest =>
      unfold findAllAux at h
      cases h1 : tryBranch1 (c :: rest) with
      | some pr =>
        obtain ⟨mm, rr⟩ := pr
        rw [h1] at h
        rcases List.mem_cons.mp h with heq | hmem
        · exact absurd heq (by simp)
        · exact ih rr hmem
      | none =>
        rw [h1] at h
        cases h2 : tryBranch2 (c :: rest) with
        | some pr =>
          obtain ⟨mm, rr⟩ := pr
          rw [h2] at h
          rcases List.mem_cons.mp h with heq | hmem
          · obtain ⟨-, hmeq⟩ : Branch.b2 = Branch.b2 ∧ m = mm := by simpa using heq
            exact ⟨c :: rest, rr, by rw [h2, hmeq]⟩
          · exact ih rr hmem
        | none =>
          rw [h2] at h
          exact ih rest h

/-- C9: the `(ss|trojan)://…` alternative of `parseLinks`' descriptor
pattern matches only `credential@host:port` forms with a 2-to-5-digit
port followed by a non-empty `?`/`#` suffix (first conjunct: every
branch-2 match decomposes that way); and the suffix-less example
`"ss://user@host:8388"` — which matches neither alternative nor the
URL pattern — makes `parseLinks` fail with `ErrInvalidData` (second
conjunct). -/
theorem c9_ss_trojan_need_suffix :
    (∀ cs m, (Branch.b2, m) ∈ findAllMatches cs → branch2Shape m)
    ∧ parseLinks "ss://user@host:8388" = LinksResult.invalid := by
  refine ⟨?_, rfl⟩
  intro cs m hmem
  obtain ⟨cs', rem, h⟩ := findAllAux_b2_mem m cs.length cs hmem
  exact tryBranch2_shape cs' m rem h

/-- Witness for C9 at the concrete descriptor `"ss://u@h:80#x"`,
which the scanner recognizes as a branch-2 match. -/
theorem c9_ss_trojan_need_suffix_witness : branch2Shape ("ss://u@h:80#x".toList) :=
  c9_ss_trojan_need_suffix.1 ("ss://u@h:80#x".toList) ("ss://u@h:80#x".toList) (by decide)

end LiteSpeedTest
